import Mathlib

/-!
Shallow embedding of the emoji-steganography codec core from
`src/emoji_stego_android.py`.

Python strings are modelled as `List Nat` of Unicode code points, byte
strings as `List Nat` of values `< 256`, and fallible decoders return
`Option`.  The Python calls `str.encode` and `bytes.decode` with the utf-8
codec are modelled by `utf8Encode` / `utf8Decode` (strict UTF-8:
continuation, overlong, surrogate and range checks as in the CPython
strict codec).
The float comparison `control_count <= len(result) * 0.1` is modelled
exactly as `10 * control_count <= len(result)` (the two agree for all
realistic lengths).
-/

namespace EmojiStego

/-- Source constant `TAG_BASE = 0xE0000`. -/
def TAG_BASE : Nat := 0xE0000

/-- Source constant `TAG_END = 0xE007F`. -/
def TAG_END : Nat := 0xE007F

/-- A Unicode scalar value: in range and not a surrogate.  UTF-8 encoding
in Python succeeds exactly on strings of such code points. -/
def validCP (c : Nat) : Bool :=
  decide (c < 0x110000) && !(decide (0xD800 ≤ c) && decide (c < 0xE000))

/-- UTF-8 encoding of a single Unicode scalar value. -/
def utf8EncodeChar (c : Nat) : List Nat :=
  if c < 0x80 then [c]
  else if c < 0x800 then [0xC0 + c / 64, 0x80 + c % 64]
  else if c < 0x10000 then [0xE0 + c / 4096, 0x80 + c / 64 % 64, 0x80 + c % 64]
  else [0xF0 + c / 262144, 0x80 + c / 4096 % 64, 0x80 + c / 64 % 64, 0x80 + c % 64]

/-- UTF-8 encoding of a string of code points, as in `text.encode` with the
utf-8 codec. -/
def utf8Encode (s : List Nat) : List Nat :=
  (s.map utf8EncodeChar).flatten

/-- Is `b` a UTF-8 continuation byte `0x80..0xBF`? -/
def contByte (b : Nat) : Bool :=
  decide (0x80 ≤ b) && decide (b < 0xC0)

/-!
Strict UTF-8 decoding (`bytes.decode` with the utf-8 codec) as the byte-wise
state machine: `utf8Run` expects a lead byte, `utf8Cont acc need lo hi`
expects `need` more continuation bytes, the next one within `[lo, hi]`.
The first-continuation ranges encode exactly the CPython strict rejection of
overlong forms, surrogates and values above `0x10FFFF` (lead `0xE0` needs
`0xA0..0xBF`, `0xED` needs `0x80..0x9F`, `0xF0` needs `0x90..0xBF`,
`0xF4` needs `0x80..0x8F`; leads `0x80..0xC1` and `0xF5..` are invalid).
-/

mutual

def utf8Run : List Nat → Option (List Nat)
  | [] => some []
  | b :: l =>
    if b < 0x80 then (utf8Run l).map (fun t => b :: t)
    else if b < 0xC2 then none
    else if b < 0xE0 then utf8Cont (b - 0xC0) 1 0x80 0xBF l
    else if b < 0xF0 then
      utf8Cont (b - 0xE0) 2 (if b = 0xE0 then 0xA0 else 0x80)
        (if b = 0xED then 0x9F else 0xBF) l
    else if b < 0xF5 then
      utf8Cont (b - 0xF0) 3 (if b = 0xF0 then 0x90 else 0x80)
        (if b = 0xF4 then 0x8F else 0xBF) l
    else none

def utf8Cont : Nat → Nat → Nat → Nat → List Nat → Option (List Nat)
  | _, _, _, _, [] => none
  | acc, need, lo, hi, b :: l =>
    if lo ≤ b ∧ b ≤ hi then
      if need = 1 then (utf8Run l).map (fun t => (acc * 64 + (b - 0x80)) :: t)
      else utf8Cont (acc * 64 + (b - 0x80)) (need - 1) 0x80 0xBF l
    else none

end

/-- Model of `bytes.decode` with the utf-8 codec and strict error handling. -/
def utf8Decode (bs : List Nat) : Option (List Nat) :=
  utf8Run bs

/-! ## Tag codec (lines 25-87 of the source) -/

/-- Source function `text_to_tags`: each UTF-8 byte becomes two tag characters,
`chr(TAG_BASE + high_nibble)` then `chr(TAG_BASE + low_nibble)`. -/
def text_to_tags (text : List Nat) : List Nat :=
  ((utf8Encode text).map
    (fun b => [TAG_BASE + b / 16 % 16, TAG_BASE + b % 16])).flatten

/-- Source function `hide_text_in_emoji_tags`: carrier, then tag digits, then
`chr(TAG_END)`. -/
def hide_text_in_emoji_tags (emoji hidden_text : List Nat) : List Nat :=
  emoji ++ text_to_tags hidden_text ++ [TAG_END]

/-- The nibble-collecting scan loop shared by `tags_to_text` and
`reveal_text_from_emoji_tags`: collect `code - TAG_BASE` for code points in
`[TAG_BASE, TAG_BASE+16)`, stop at the first `TAG_END`, skip everything else. -/
def tagScan : List Nat → List Nat
  | [] => []
  | c :: rest =>
    if TAG_BASE ≤ c ∧ c < TAG_BASE + 16 then (c - TAG_BASE) :: tagScan rest
    else if c = TAG_END then []
    else tagScan rest

/-- The pairing loop `for i in range(0, len(nibbles) - 1, 2)`: consecutive
nibble pairs become bytes `(high << 4) | low`; a trailing odd nibble is
dropped. -/
def pairNibbles : List Nat → List Nat
  | a :: b :: rest => (a * 16 + b) :: pairNibbles rest
  | _ => []

/-- Source function `reveal_text_from_emoji_tags`: scan nibbles, return `None` if none were
collected, else pair them into bytes and UTF-8 decode (`except: return None`). -/
def reveal_text_from_emoji_tags (stego_emoji : List Nat) : Option (List Nat) :=
  let nibbles := tagScan stego_emoji
  if nibbles = [] then none
  else utf8Decode (pairNibbles nibbles)

/-! ## Zero-width binary codec (lines 92-158 of the source) -/

/-- Source constant: the zero-bit character U+200B. -/
def ZW0 : Nat := 0x200B

/-- Source constant: the one-bit character U+200C. -/
def ZW1 : Nat := 0x200C

/-- Source constant: the separator character U+200D. -/
def ZWSEP : Nat := 0x200D

/-- Whether the bit at weight position of `n` (its last binary digit) is 1. -/
def oddBit (n : Nat) : Bool :=
  decide (n % 2 = 1)

/-- Model of the format call with the 08b spec: the 8 bits of a byte, most
significant first. -/
def byteBits (b : Nat) : List Bool :=
  [oddBit (b / 128), oddBit (b / 64), oddBit (b / 32), oddBit (b / 16),
   oddBit (b / 8), oddBit (b / 4), oddBit (b / 2), oddBit b]

/-- Source function `text_to_binary`: UTF-8 bytes rendered as a bit string. -/
def text_to_binary (text : List Nat) : List Bool :=
  ((utf8Encode text).map byteBits).flatten

/-- Numeric value of one bit character. -/
def bitVal (x : Bool) : Nat :=
  if x then 1 else 0

/-- The grouping loop of `binary_to_text`: split the bit string into 8-bit
groups (`int(byte, 2)`), dropping a trailing group shorter than 8. -/
def bitsToBytes : List Bool → List Nat
  | b7 :: b6 :: b5 :: b4 :: b3 :: b2 :: b1 :: b0 :: rest =>
    (128 * bitVal b7 + 64 * bitVal b6 + 32 * bitVal b5 + 16 * bitVal b4
      + 8 * bitVal b3 + 4 * bitVal b2 + 2 * bitVal b1 + bitVal b0)
      :: bitsToBytes rest
  | _ => []

/-- Characters counted by the control-character filter: code point below 32
and not newline, carriage return or tab. -/
def isControl (c : Nat) : Bool :=
  decide (c < 32) && !(decide (c = 10)) && !(decide (c = 13)) && !(decide (c = 9))

/-- Model of the control-character count over a decoded string. -/
def controlCount (cs : List Nat) : Nat :=
  (cs.filter isControl).length

/-- Model of `raw_bytes.decode` with the latin-1 codec: total, each byte
value becomes the code point of the same value. -/
def latin1Decode (bs : List Nat) : Option (List Nat) :=
  some bs

/-- Model of joining `chr(b)` over the byte list: `chr` succeeds for every
value below `0x110000`, so this is total on byte values. -/
def rawChrDecode (bs : List Nat) : Option (List Nat) :=
  if ∀ b ∈ bs, b < 0x110000 then some bs else none

/-- Source function `binary_to_text`: group bits into bytes, then the chain of
decode attempts:
UTF-8 (kept only if at most 10% control characters), then Latin-1, then
raw `chr`, then `None`. -/
def binary_to_text (binary : List Bool) : Option (List Nat) :=
  let bytes_list := bitsToBytes binary
  if bytes_list = [] then none
  else
    let utf8Attempt : Option (List Nat) :=
      match utf8Decode bytes_list with
      | some result =>
        if 10 * controlCount result ≤ result.length then some result else none
      | none => none
    match utf8Attempt with
    | some r => some r
    | none =>
      match latin1Decode bytes_list with
      | some r => some r
      | none =>
        match rawChrDecode bytes_list with
        | some r => some r
        | none => none

/-- Source function `encode_text_in_emoji_binary`: carrier, then one zero-width
character
per bit, then the separator. -/
def encode_text_in_emoji_binary (emoji hidden_text : List Nat) : List Nat :=
  emoji ++ (text_to_binary hidden_text).map (fun x => if x then ZW1 else ZW0)
    ++ [ZWSEP]

/-- The bit-collecting scan loop of `decode_text_from_emoji_binary`:
U+200B is a 0 bit, U+200C a 1 bit, stop at the first U+200D, skip all
other code points. -/
def bitScan : List Nat → List Bool
  | [] => []
  | c :: rest =>
    if c = ZW0 then false :: bitScan rest
    else if c = ZW1 then true :: bitScan rest
    else if c = ZWSEP then []
    else bitScan rest

/-- Source function `decode_text_from_emoji_binary`: scan bits, `None` if none were
collected, else `binary_to_text`. -/
def decode_text_from_emoji_binary (stego_emoji : List Nat) : Option (List Nat) :=
  let binary := bitScan stego_emoji
  if binary = [] then none
  else binary_to_text binary

/-! ## Auto-detection dispatch (`DecodeTab.decode_message`, AUTO branch) -/

/-- Which codec the AUTO branch reports having matched. -/
inductive Scheme
  | tag
  | binary
deriving DecidableEq, Repr

/-- Python truthiness of an optional string: absent and empty are falsy. -/
def pyTruthy (o : Option (List Nat)) : Bool :=
  match o with
  | none => false
  | some t => !t.isEmpty

/-- The AUTO branch of `DecodeTab.decode_message`: try the tag decoder; if
its result is falsy (`None` or empty), try the binary decoder; report the
scheme of the first truthy result, else no message. -/
def decode_auto (stego_emoji : List Nat) : Option (List Nat × Scheme) :=
  let t1 := reveal_text_from_emoji_tags stego_emoji
  if pyTruthy t1 then t1.map (fun t => (t, Scheme.tag))
  else
    let t2 := decode_text_from_emoji_binary stego_emoji
    if pyTruthy t2 then t2.map (fun t => (t, Scheme.binary))
    else none

/-- Membership of a code point in the tag codec alphabet (digits or
terminator). -/
def tagAlpha (c : Nat) : Bool :=
  (decide (TAG_BASE ≤ c) && decide (c < TAG_BASE + 16)) || decide (c = TAG_END)

/-- Membership of a code point in the zero-width codec alphabet. -/
def zwAlpha (c : Nat) : Bool :=
  decide (c = ZW0) || decide (c = ZW1) || decide (c = ZWSEP)

/-! ## UTF-8 round-trip lemmas -/

theorem validCP_iff (c : Nat) :
    validCP c = true ↔ c < 0x110000 ∧ (c < 0xD800 ∨ 0xE000 ≤ c) := by
  unfold validCP
  simp only [Bool.and_eq_true, Bool.not_eq_true', Bool.and_eq_false_iff,
    decide_eq_true_eq, decide_eq_false_iff_not]
  omega

theorem utf8Decode_ascii (b : Nat) (hb : b < 0x80) (l : List Nat) :
    utf8Decode (b :: l) = (utf8Decode l).map (fun t => b :: t) := by
  simp only [utf8Decode, utf8Run]
  rw [if_pos hb]

theorem utf8Cont_last (acc lo hi b : Nat) (l : List Nat)
    (h : lo ≤ b ∧ b ≤ hi) :
    utf8Cont acc 1 lo hi (b :: l) =
      (utf8Run l).map (fun t => (acc * 64 + (b - 0x80)) :: t) := by
  simp only [utf8Cont]
  rw [if_pos h]
  simp

theorem utf8Cont_step (acc need lo hi b : Nat) (l : List Nat)
    (h : lo ≤ b ∧ b ≤ hi) (hn : ¬need = 1) :
    utf8Cont acc need lo hi (b :: l) =
      utf8Cont (acc * 64 + (b - 0x80)) (need - 1) 0x80 0xBF l := by
  simp only [utf8Cont]
  rw [if_pos h, if_neg hn]

theorem utf8Decode_two (b b1 : Nat) (hb : 0xC2 ≤ b) (hb2 : b < 0xE0)
    (h1 : 0x80 ≤ b1) (h2 : b1 < 0xC0) (l : List Nat) :
    utf8Decode (b :: b1 :: l) =
      (utf8Decode l).map (fun t => ((b - 0xC0) * 64 + (b1 - 0x80)) :: t) := by
  simp only [utf8Decode, utf8Run]
  rw [if_neg (by omega), if_neg (by omega), if_pos hb2]
  rw [utf8Cont_last (b - 0xC0) 0x80 0xBF b1 l (by omega)]

theorem utf8Decode_three (b b1 b2 : Nat) (hb : 0xE0 ≤ b) (hb2 : b < 0xF0)
    (h1 : 0x80 ≤ b1) (h2 : b1 < 0xC0) (h3 : 0x80 ≤ b2) (h4 : b2 < 0xC0)
    (he : b = 0xE0 → 0xA0 ≤ b1) (hd : b = 0xED → b1 < 0xA0) (l : List Nat) :
    utf8Decode (b :: b1 :: b2 :: l) =
      (utf8Decode l).map
        (fun t => ((b - 0xE0) * 4096 + (b1 - 0x80) * 64 + (b2 - 0x80)) :: t) := by
  simp only [utf8Decode, utf8Run]
  rw [if_neg (by omega), if_neg (by omega), if_neg (by omega), if_pos hb2]
  have hr : (if b = 0xE0 then 0xA0 else 0x80) ≤ b1
      ∧ b1 ≤ (if b = 0xED then 0x9F else 0xBF) := by
    constructor <;> split <;> omega
  rw [utf8Cont_step (b - 0xE0) 2 _ _ b1 (b2 :: l) hr (by omega)]
  rw [show (2 : Nat) - 1 = 1 from rfl]
  rw [utf8Cont_last ((b - 0xE0) * 64 + (b1 - 0x80)) 0x80 0xBF b2 l (by omega)]
  have hv : ((b - 0xE0) * 64 + (b1 - 0x80)) * 64 + (b2 - 0x80)
      = (b - 0xE0) * 4096 + (b1 - 0x80) * 64 + (b2 - 0x80) := by
    ring
  rw [hv]

theorem utf8Decode_four (b b1 b2 b3 : Nat) (hb : 0xF0 ≤ b) (hb2 : b < 0xF5)
    (h1 : 0x80 ≤ b1) (h2 : b1 < 0xC0) (h3 : 0x80 ≤ b2) (h4 : b2 < 0xC0)
    (h5 : 0x80 ≤ b3) (h6 : b3 < 0xC0)
    (he : b = 0xF0 → 0x90 ≤ b1) (hd : b = 0xF4 → b1 < 0x90) (l : List Nat) :
    utf8Decode (b :: b1 :: b2 :: b3 :: l) =
      (utf8Decode l).map
        (fun t => ((b - 0xF0) * 262144 + (b1 - 0x80) * 4096
                    + (b2 - 0x80) * 64 + (b3 - 0x80)) :: t) := by
  simp only [utf8Decode, utf8Run]
  rw [if_neg (by omega), if_neg (by omega), if_neg (by omega), if_neg (by omega),
    if_pos hb2]
  have hr : (if b = 0xF0 then 0x90 else 0x80) ≤ b1
      ∧ b1 ≤ (if b = 0xF4 then 0x8F else 0xBF) := by
    constructor <;> split <;> omega
  rw [utf8Cont_step (b - 0xF0) 3 _ _ b1 (b2 :: b3 :: l) hr (by omega)]
  rw [show (3 : Nat) - 1 = 2 from rfl]
  rw [utf8Cont_step ((b - 0xF0) * 64 + (b1 - 0x80)) 2 0x80 0xBF b2 (b3 :: l)
    (by omega) (by omega)]
  rw [show (2 : Nat) - 1 = 1 from rfl]
  rw [utf8Cont_last (((b - 0xF0) * 64 + (b1 - 0x80)) * 64 + (b2 - 0x80))
    0x80 0xBF b3 l (by omega)]
  have hv : (((b - 0xF0) * 64 + (b1 - 0x80)) * 64 + (b2 - 0x80)) * 64 + (b3 - 0x80)
      = (b - 0xF0) * 262144 + (b1 - 0x80) * 4096 + (b2 - 0x80) * 64 + (b3 - 0x80) := by
    ring
  rw [hv]

theorem utf8Decode_encodeChar (c : Nat) (h : validCP c = true) (l : List Nat) :
    utf8Decode (utf8EncodeChar c ++ l) = (utf8Decode l).map (fun t => c :: t) := by
  rw [validCP_iff] at h
  unfold utf8EncodeChar
  by_cases hA : c < 0x80
  · rw [if_pos hA]
    simpa using utf8Decode_ascii c hA l
  · rw [if_neg hA]
    by_cases hB : c < 0x800
    · rw [if_pos hB]
      have hstep := utf8Decode_two (0xC0 + c / 64) (0x80 + c % 64)
        (by omega) (by omega) (by omega) (by omega) l
      have hv : (0xC0 + c / 64 - 0xC0) * 64 + (0x80 + c % 64 - 0x80) = c := by
        omega
      rw [hv] at hstep
      simpa using hstep
    · rw [if_neg hB]
      by_cases hC : c < 0x10000
      · rw [if_pos hC]
        have hstep := utf8Decode_three (0xE0 + c / 4096) (0x80 + c / 64 % 64)
          (0x80 + c % 64) (by omega) (by omega) (by omega) (by omega)
          (by omega) (by omega) (by omega) (by omega) l
        have hv : (0xE0 + c / 4096 - 0xE0) * 4096 + (0x80 + c / 64 % 64 - 0x80) * 64
            + (0x80 + c % 64 - 0x80) = c := by
          omega
        rw [hv] at hstep
        simpa using hstep
      · rw [if_neg hC]
        have hstep := utf8Decode_four (0xF0 + c / 262144) (0x80 + c / 4096 % 64)
          (0x80 + c / 64 % 64) (0x80 + c % 64) (by omega) (by omega) (by omega)
          (by omega) (by omega) (by omega) (by omega) (by omega)
          (by omega) (by omega) l
        have hv : (0xF0 + c / 262144 - 0xF0) * 262144
            + (0x80 + c / 4096 % 64 - 0x80) * 4096
            + (0x80 + c / 64 % 64 - 0x80) * 64 + (0x80 + c % 64 - 0x80) = c := by
          omega
        rw [hv] at hstep
        simpa using hstep

/-- UTF-8 round-trip for well-formed code point sequences: the heart of the
encode/decode correctness results. -/
theorem utf8Decode_utf8Encode (s : List Nat) (h : ∀ c ∈ s, validCP c = true) :
    utf8Decode (utf8Encode s) = some s := by
  induction s with
  | nil => simp [utf8Encode, utf8Decode, utf8Run]
  | cons c cs ih =>
    have hc := h c (List.mem_cons_self c cs)
    have hcs : ∀ x ∈ cs, validCP x = true := fun x hx =>
      h x (List.mem_cons_of_mem _ hx)
    have hsplit : utf8Encode (c :: cs) = utf8EncodeChar c ++ utf8Encode cs := by
      simp [utf8Encode]
    rw [hsplit, utf8Decode_encodeChar c hc, ih hcs]
    rfl

/-- Every byte produced by the UTF-8 encoder is an actual byte value. -/
theorem utf8EncodeChar_lt_256 (c : Nat) (h : c < 0x110000) :
    ∀ b ∈ utf8EncodeChar c, b < 256 := by
  intro b hb
  unfold utf8EncodeChar at hb
  split at hb
  · simp at hb
    omega
  · split at hb
    · simp at hb
      rcases hb with hb | hb <;> omega
    · split at hb
      · simp at hb
        rcases hb with hb | hb | hb <;> omega
      · simp at hb
        rcases hb with hb | hb | hb | hb <;> omega

theorem utf8Encode_lt_256 (s : List Nat) (h : ∀ c ∈ s, c < 0x110000) :
    ∀ b ∈ utf8Encode s, b < 256 := by
  intro b hb
  simp only [utf8Encode, List.mem_flatten, List.mem_map] at hb
  obtain ⟨bs, ⟨c, hc, rfl⟩, hbbs⟩ := hb
  exact utf8EncodeChar_lt_256 c (h c hc) b hbbs

/-- The encoder never produces an empty byte list for a code point. -/
theorem utf8EncodeChar_ne_nil (c : Nat) : utf8EncodeChar c ≠ [] := by
  unfold utf8EncodeChar
  split
  · simp
  · split
    · simp
    · split <;> simp

theorem utf8Encode_eq_nil_iff (s : List Nat) : utf8Encode s = [] ↔ s = [] := by
  cases s with
  | nil => simp [utf8Encode]
  | cons c cs =>
    simp only [utf8Encode, List.map_cons, List.flatten_cons, List.append_eq_nil]
    constructor
    · rintro ⟨h1, -⟩
      exact absurd h1 (utf8EncodeChar_ne_nil c)
    · intro h
      cases h

/-! ## Tag scan lemmas -/

theorem tagAlpha_false_iff (c : Nat) :
    tagAlpha c = false ↔ ¬(TAG_BASE ≤ c ∧ c < TAG_BASE + 16) ∧ c ≠ TAG_END := by
  simp only [tagAlpha, Bool.or_eq_false_iff, Bool.and_eq_false_iff,
    decide_eq_false_iff_not, TAG_BASE, TAG_END]
  omega

theorem tagScan_cons_digit (c : Nat) (h : TAG_BASE ≤ c ∧ c < TAG_BASE + 16)
    (s : List Nat) : tagScan (c :: s) = (c - TAG_BASE) :: tagScan s := by
  simp only [tagScan]
  rw [if_pos h]

theorem tagScan_cons_skip (c : Nat) (h : tagAlpha c = false) (s : List Nat) :
    tagScan (c :: s) = tagScan s := by
  rw [tagAlpha_false_iff] at h
  simp only [tagScan]
  rw [if_neg h.1, if_neg h.2]

theorem tagScan_cons_end (s : List Nat) : tagScan (TAG_END :: s) = [] := by
  simp only [tagScan]
  rw [if_neg (by simp [TAG_BASE, TAG_END])]
  simp

theorem tagScan_append_skip (e s : List Nat) (h : ∀ c ∈ e, tagAlpha c = false) :
    tagScan (e ++ s) = tagScan s := by
  induction e with
  | nil => rfl
  | cons c cs ih =>
    rw [List.cons_append, tagScan_cons_skip c (h c (List.mem_cons_self c cs))]
    exact ih fun x hx => h x (List.mem_cons_of_mem _ hx)

theorem tagScan_append_digits (ns s : List Nat) (h : ∀ n ∈ ns, n < 16) :
    tagScan (ns.map (fun n => TAG_BASE + n) ++ s) = ns ++ tagScan s := by
  induction ns with
  | nil => rfl
  | cons n rest ih =>
    have hn := h n (List.mem_cons_self n rest)
    rw [List.map_cons, List.cons_append,
      tagScan_cons_digit (TAG_BASE + n) (by omega) _]
    rw [ih fun x hx => h x (List.mem_cons_of_mem _ hx)]
    simp

/-- The nibble sequence of a byte list: high nibble, low nibble per byte. -/
def tagNibbles (bs : List Nat) : List Nat :=
  (bs.map (fun b => [b / 16 % 16, b % 16])).flatten

theorem text_to_tags_eq (t : List Nat) :
    text_to_tags t = (tagNibbles (utf8Encode t)).map (fun n => TAG_BASE + n) := by
  unfold text_to_tags tagNibbles
  induction utf8Encode t with
  | nil => rfl
  | cons b bs ih => simp_all

theorem tagNibbles_lt_16 (bs : List Nat) : ∀ n ∈ tagNibbles bs, n < 16 := by
  intro n hn
  simp only [tagNibbles, List.mem_flatten, List.mem_map] at hn
  obtain ⟨p, ⟨b, hb, rfl⟩, hp⟩ := hn
  simp at hp
  rcases hp with h | h <;> omega

theorem pairNibbles_tagNibbles (bs : List Nat) (h : ∀ b ∈ bs, b < 256) :
    pairNibbles (tagNibbles bs) = bs := by
  induction bs with
  | nil => rfl
  | cons b rest ih =>
    have hb := h b (List.mem_cons_self b rest)
    have hstep : tagNibbles (b :: rest) = b / 16 % 16 :: b % 16 :: tagNibbles rest := by
      simp [tagNibbles]
    rw [hstep]
    simp only [pairNibbles]
    rw [ih fun x hx => h x (List.mem_cons_of_mem _ hx)]
    have : b / 16 % 16 * 16 + b % 16 = b := by omega
    rw [this]

theorem tagNibbles_eq_nil_iff (bs : List Nat) : tagNibbles bs = [] ↔ bs = [] := by
  cases bs <;> simp [tagNibbles]

theorem validCP_lt (c : Nat) (h : validCP c = true) : c < 0x110000 :=
  ((validCP_iff c).mp h).1

/-- Round-trip of the tag codec for a carrier free of tag-alphabet code
points and a nonempty payload of Unicode scalar values. -/
theorem reveal_hide_tags (C P : List Nat) (hC : ∀ c ∈ C, tagAlpha c = false)
    (hP : ∀ c ∈ P, validCP c = true) (hne : P ≠ []) :
    reveal_text_from_emoji_tags (hide_text_in_emoji_tags C P) = some P := by
  unfold hide_text_in_emoji_tags reveal_text_from_emoji_tags
  have hscan : tagScan (C ++ text_to_tags P ++ [TAG_END])
      = tagNibbles (utf8Encode P) := by
    rw [List.append_assoc, tagScan_append_skip C _ hC, text_to_tags_eq,
      tagScan_append_digits _ _ (tagNibbles_lt_16 _), tagScan_cons_end]
    simp
  simp only [hscan]
  have hnil : ¬tagNibbles (utf8Encode P) = [] := by
    rw [tagNibbles_eq_nil_iff, utf8Encode_eq_nil_iff]
    exact hne
  rw [if_neg hnil,
    pairNibbles_tagNibbles _ (utf8Encode_lt_256 P fun c hc => validCP_lt c (hP c hc))]
  exact utf8Decode_utf8Encode P hP

/-! ## Zero-width scan lemmas -/

theorem zwAlpha_false_iff (c : Nat) :
    zwAlpha c = false ↔ c ≠ ZW0 ∧ c ≠ ZW1 ∧ c ≠ ZWSEP := by
  simp only [zwAlpha, Bool.or_eq_false_iff, decide_eq_false_iff_not]
  tauto

theorem bitScan_cons_skip (c : Nat) (h : zwAlpha c = false) (s : List Nat) :
    bitScan (c :: s) = bitScan s := by
  rw [zwAlpha_false_iff] at h
  simp only [bitScan]
  rw [if_neg h.1, if_neg h.2.1, if_neg h.2.2]

theorem bitScan_cons_sep (s : List Nat) : bitScan (ZWSEP :: s) = [] := by
  simp only [bitScan]
  rw [if_neg (by simp [ZW0, ZWSEP]), if_neg (by simp [ZW1, ZWSEP])]
  simp

theorem bitScan_append_skip (e s : List Nat) (h : ∀ c ∈ e, zwAlpha c = false) :
    bitScan (e ++ s) = bitScan s := by
  induction e with
  | nil => rfl
  | cons c cs ih =>
    rw [List.cons_append, bitScan_cons_skip c (h c (List.mem_cons_self c cs))]
    exact ih fun x hx => h x (List.mem_cons_of_mem _ hx)

theorem bitScan_cons_zero (s : List Nat) : bitScan (ZW0 :: s) = false :: bitScan s := by
  simp [bitScan]

theorem bitScan_cons_one (s : List Nat) : bitScan (ZW1 :: s) = true :: bitScan s := by
  simp [bitScan, ZW0, ZW1]

theorem bitScan_append_bits (bits : List Bool) (s : List Nat) :
    bitScan ((bits.map fun x => if x then ZW1 else ZW0) ++ s) = bits ++ bitScan s := by
  induction bits with
  | nil => rfl
  | cons x xs ih =>
    rw [List.map_cons, List.cons_append]
    cases x with
    | false =>
      rw [show (if (false = true) then ZW1 else ZW0) = ZW0 from rfl,
        bitScan_cons_zero, ih, List.cons_append]
    | true =>
      rw [show (if (true = true) then ZW1 else ZW0) = ZW1 from rfl,
        bitScan_cons_one, ih, List.cons_append]

theorem bitVal_oddBit (n : Nat) : bitVal (oddBit n) = n % 2 := by
  unfold bitVal oddBit
  rcases Nat.mod_two_eq_zero_or_one n with h | h <;> simp [h]

theorem bitsToBytes_byteBits (bs : List Nat) (h : ∀ b ∈ bs, b < 256) :
    bitsToBytes ((bs.map byteBits).flatten) = bs := by
  induction bs with
  | nil => rfl
  | cons b rest ih =>
    have hb := h b (List.mem_cons_self b rest)
    have hrest := ih fun x hx => h x (List.mem_cons_of_mem _ hx)
    have hv : 128 * (b / 128 % 2) + 64 * (b / 64 % 2) + 32 * (b / 32 % 2)
        + 16 * (b / 16 % 2) + 8 * (b / 8 % 2) + 4 * (b / 4 % 2)
        + 2 * (b / 2 % 2) + b % 2 = b := by
      omega
    simp [byteBits, bitsToBytes, bitVal_oddBit, hrest, hv]

theorem text_to_binary_eq_nil_iff (t : List Nat) :
    text_to_binary t = [] ↔ t = [] := by
  unfold text_to_binary
  rw [← utf8Encode_eq_nil_iff t]
  cases utf8Encode t <;> simp [byteBits]

theorem bitsToBytes_text_to_binary (t : List Nat)
    (h : ∀ c ∈ t, validCP c = true) :
    bitsToBytes (text_to_binary t) = utf8Encode t :=
  bitsToBytes_byteBits (utf8Encode t)
    (utf8Encode_lt_256 t fun c hc => validCP_lt c (h c hc))

/-- The binary codec decodes its own bit stream back to the payload when the
payload passes the control-character plausibility filter. -/
theorem binary_to_text_encode (P : List Nat) (hP : ∀ c ∈ P, validCP c = true)
    (hne : P ≠ []) (hctl : 10 * controlCount P ≤ P.length) :
    binary_to_text (text_to_binary P) = some P := by
  unfold binary_to_text
  rw [bitsToBytes_text_to_binary P hP]
  have hnil : ¬utf8Encode P = [] := by
    rw [utf8Encode_eq_nil_iff]
    exact hne
  rw [if_neg hnil, utf8Decode_utf8Encode P hP]
  simp only []
  rw [if_pos hctl]

/-- Round-trip of the zero-width binary codec for a carrier free of
zero-width alphabet code points and a control-light nonempty payload. -/
theorem decode_encode_binary (C P : List Nat) (hC : ∀ c ∈ C, zwAlpha c = false)
    (hP : ∀ c ∈ P, validCP c = true) (hne : P ≠ [])
    (hctl : 10 * controlCount P ≤ P.length) :
    decode_text_from_emoji_binary (encode_text_in_emoji_binary C P) = some P := by
  unfold encode_text_in_emoji_binary decode_text_from_emoji_binary
  have hscan : bitScan (C ++ (text_to_binary P).map (fun x => if x then ZW1 else ZW0)
      ++ [ZWSEP]) = text_to_binary P := by
    rw [List.append_assoc, bitScan_append_skip C _ hC, bitScan_append_bits,
      bitScan_cons_sep]
    simp
  simp only [hscan]
  have hnil : ¬text_to_binary P = [] := by
    rw [text_to_binary_eq_nil_iff]
    exact hne
  rw [if_neg hnil]
  exact binary_to_text_encode P hP hne hctl

/-! ## Cross-scheme facts and the auto-detector -/

theorem tagScan_eq_nil (l : List Nat) (h : ∀ c ∈ l, tagAlpha c = false) :
    tagScan l = [] := by
  have hs := tagScan_append_skip l [] h
  simpa using hs

theorem bitScan_eq_nil (l : List Nat) (h : ∀ c ∈ l, zwAlpha c = false) :
    bitScan l = [] := by
  have hs := bitScan_append_skip l [] h
  simpa using hs

theorem reveal_eq_none (s : List Nat) (h : tagScan s = []) :
    reveal_text_from_emoji_tags s = none := by
  unfold reveal_text_from_emoji_tags
  simp [h]

theorem decode_binary_eq_none (s : List Nat) (h : bitScan s = []) :
    decode_text_from_emoji_binary s = none := by
  unfold decode_text_from_emoji_binary
  simp [h]

/-- No code point of the binary stego output lies in the tag alphabet,
provided the carrier is clean. -/
theorem encode_binary_no_tagAlpha (C P : List Nat)
    (hC : ∀ c ∈ C, tagAlpha c = false) :
    ∀ c ∈ encode_text_in_emoji_binary C P, tagAlpha c = false := by
  intro c hc
  unfold encode_text_in_emoji_binary at hc
  simp only [List.append_assoc, List.mem_append, List.mem_map,
    List.mem_singleton] at hc
  rcases hc with hc | ⟨x, -, rfl⟩ | rfl
  · exact hC c hc
  · cases x <;> simp [ZW0, ZW1, tagAlpha, TAG_BASE, TAG_END]
  · simp [ZWSEP, tagAlpha, TAG_BASE, TAG_END]

/-- No code point of the tag stego output lies in the zero-width alphabet,
provided the carrier is clean. -/
theorem encode_tags_no_zwAlpha (C P : List Nat)
    (hC : ∀ c ∈ C, zwAlpha c = false) :
    ∀ c ∈ hide_text_in_emoji_tags C P, zwAlpha c = false := by
  intro c hc
  unfold hide_text_in_emoji_tags at hc
  rw [text_to_tags_eq] at hc
  simp only [List.append_assoc, List.mem_append, List.mem_map,
    List.mem_singleton] at hc
  rcases hc with hc | ⟨n, -, rfl⟩ | rfl
  · exact hC c hc
  · simp only [zwAlpha, ZW0, ZW1, ZWSEP, TAG_BASE, Bool.or_eq_false_iff,
      decide_eq_false_iff_not]
    omega
  · simp [zwAlpha, ZW0, ZW1, ZWSEP, TAG_END]

theorem pyTruthy_some (t : List Nat) (h : t ≠ []) :
    pyTruthy (some t) = true := by
  simp [pyTruthy, h]

/-- The auto-detector on a tag-encoded stego string. -/
theorem decode_auto_tags (C P : List Nat) (hC : ∀ c ∈ C, tagAlpha c = false)
    (hP : ∀ c ∈ P, validCP c = true) (hne : P ≠ []) :
    decode_auto (hide_text_in_emoji_tags C P) = some (P, Scheme.tag) := by
  unfold decode_auto
  rw [reveal_hide_tags C P hC hP hne]
  simp [pyTruthy, List.isEmpty_iff, hne]

/-- The auto-detector on a binary-encoded stego string whose carrier is free
of both alphabets. -/
theorem decode_auto_binary (C P : List Nat)
    (hCt : ∀ c ∈ C, tagAlpha c = false) (hCz : ∀ c ∈ C, zwAlpha c = false)
    (hP : ∀ c ∈ P, validCP c = true) (hne : P ≠ [])
    (hctl : 10 * controlCount P ≤ P.length) :
    decode_auto (encode_text_in_emoji_binary C P) = some (P, Scheme.binary) := by
  unfold decode_auto
  rw [reveal_eq_none _ (tagScan_eq_nil _ (encode_binary_no_tagAlpha C P hCt))]
  rw [decode_encode_binary C P hCz hP hne hctl]
  simp [pyTruthy, List.isEmpty_iff, hne]

/-! ## Truncation, totality and insertion-invariance helpers -/

theorem bitsToBytes_eq_nil_iff (bits : List Bool) :
    bitsToBytes bits = [] ↔ bits.length < 8 := by
  rcases bits with _ | ⟨a, _ | ⟨b, _ | ⟨c, _ | ⟨d, _ | ⟨e, _ | ⟨f, _ | ⟨g, _ | ⟨x, rest⟩⟩⟩⟩⟩⟩⟩⟩ <;>
    simp [bitsToBytes]

theorem bitsToBytes_append_extra :
    ∀ (bits extra : List Bool), bits.length % 8 = 0 → extra.length < 8 →
      bitsToBytes (bits ++ extra) = bitsToBytes bits
  | [], extra, _, hex => by
    have h : bitsToBytes extra = [] := (bitsToBytes_eq_nil_iff extra).mpr hex
    simpa using h
  | [a], _, hlen, _ => by simp at hlen
  | [a, b], _, hlen, _ => by simp at hlen
  | [a, b, c], _, hlen, _ => by simp at hlen
  | [a, b, c, d], _, hlen, _ => by simp at hlen
  | [a, b, c, d, e], _, hlen, _ => by simp at hlen
  | [a, b, c, d, e, f], _, hlen, _ => by simp at hlen
  | [a, b, c, d, e, f, g], _, hlen, _ => by simp at hlen
  | a :: b :: c :: d :: e :: f :: g :: x :: rest, extra, hlen, hex => by
    have hlen2 : rest.length % 8 = 0 := by
      simp at hlen
      omega
    have ih := bitsToBytes_append_extra rest extra hlen2 hex
    simp [bitsToBytes, ih]

theorem bitsToBytes_lt_256 : ∀ (bits : List Bool), ∀ b ∈ bitsToBytes bits, b < 256
  | [] => by simp [bitsToBytes]
  | [a] => by simp [bitsToBytes]
  | [a, b] => by simp [bitsToBytes]
  | [a, b, c] => by simp [bitsToBytes]
  | [a, b, c, d] => by simp [bitsToBytes]
  | [a, b, c, d, e] => by simp [bitsToBytes]
  | [a, b, c, d, e, f] => by simp [bitsToBytes]
  | [a, b, c, d, e, f, g] => by simp [bitsToBytes]
  | a :: b :: c :: d :: e :: f :: g :: x :: rest => by
    intro v hv
    simp only [bitsToBytes, List.mem_cons] at hv
    rcases hv with rfl | hv
    · unfold bitVal
      split_ifs <;> omega
    · exact bitsToBytes_lt_256 rest v hv

/-- The binary decoder always yields a result once a full byte of bits was
collected: the Latin-1 stage is total. -/
theorem binary_decode_some (s : List Nat) (h : 8 ≤ (bitScan s).length) :
    ∃ t, decode_text_from_emoji_binary s = some t := by
  unfold decode_text_from_emoji_binary binary_to_text
  have h1 : ¬bitScan s = [] := by
    intro he
    rw [he] at h
    simp at h
  have h2 : ¬bitsToBytes (bitScan s) = [] := by
    rw [bitsToBytes_eq_nil_iff]
    omega
  rw [if_neg h1, if_neg h2]
  cases hu : utf8Decode (bitsToBytes (bitScan s)) with
  | none => exact ⟨bitsToBytes (bitScan s), by simp [latin1Decode]⟩
  | some r =>
    by_cases hc : 10 * controlCount r ≤ r.length
    · exact ⟨r, by simp [hc]⟩
    · exact ⟨bitsToBytes (bitScan s), by simp [hc, latin1Decode]⟩

theorem tagScan_insert (s1 s2 : List Nat) (c : Nat) (h : tagAlpha c = false) :
    tagScan (s1 ++ c :: s2) = tagScan (s1 ++ s2) := by
  induction s1 with
  | nil => simpa using tagScan_cons_skip c h s2
  | cons a as ih =>
    simp only [List.cons_append, tagScan]
    split_ifs <;> simp [ih]

theorem bitScan_insert (s1 s2 : List Nat) (c : Nat) (h : zwAlpha c = false) :
    bitScan (s1 ++ c :: s2) = bitScan (s1 ++ s2) := by
  induction s1 with
  | nil => simpa using bitScan_cons_skip c h s2
  | cons a as ih =>
    simp only [List.cons_append, bitScan]
    split_ifs <;> simp [ih]

/-! ## Claim theorems -/

/-- C1: the tag round-trip as claimed fails for the empty payload: the
empty payload encodes to carrier + terminator but decodes to NotFound
(`None`), not to the empty string. -/
theorem C1_counterexample :
    reveal_text_from_emoji_tags (hide_text_in_emoji_tags [] []) = none ∧
    ¬reveal_text_from_emoji_tags (hide_text_in_emoji_tags [] []) = some [] := by
  decide

/-- C1 (amended): tag round-trip `decode_tag(encode_tag(C, P)) = P` for every
nonempty payload P of Unicode scalar values and every carrier C containing no
tag-alphabet code point; the empty payload instead decodes to NotFound. -/
theorem C1_tag_roundtrip (C P : List Nat) (hC : ∀ c ∈ C, tagAlpha c = false)
    (hP : ∀ c ∈ P, validCP c = true) (hne : P ≠ []) :
    reveal_text_from_emoji_tags (hide_text_in_emoji_tags C P) = some P :=
  reveal_hide_tags C P hC hP hne

/-- C1 witness: carrier 🔒 (U+1F512), payload "H😀" (ASCII + 4-byte emoji). -/
theorem C1_tag_roundtrip_witness :
    reveal_text_from_emoji_tags
      (hide_text_in_emoji_tags [128274] [72, 128512]) = some [72, 128512] :=
  C1_tag_roundtrip [128274] [72, 128512] (by decide) (by decide) (by decide)

/-- C2: the binary round-trip as claimed fails: payload `"\x00é"`
(code points 0, 233) is valid UTF-8 but has a 50% control-character ratio,
so the decoder rejects the UTF-8 reading and falls back to Latin-1, returning
the raw UTF-8 bytes 0, 195, 169 instead of the payload. -/
theorem C2_counterexample :
    ¬decode_text_from_emoji_binary
      (encode_text_in_emoji_binary [] [0, 233]) = some [0, 233] := by
  decide

/-- C2 (amended): binary round-trip `decode_binary(encode_binary(C, P)) = P`
for every nonempty payload P of Unicode scalar values whose
control-character fraction is at most 10% and every carrier C containing no
zero-width alphabet code point. -/
theorem C2_binary_roundtrip (C P : List Nat) (hC : ∀ c ∈ C, zwAlpha c = false)
    (hP : ∀ c ∈ P, validCP c = true) (hne : P ≠ [])
    (hctl : 10 * controlCount P ≤ P.length) :
    decode_text_from_emoji_binary (encode_text_in_emoji_binary C P) = some P :=
  decode_encode_binary C P hC hP hne hctl

/-- C2 witness: carrier 🔒, payload "Hi". -/
theorem C2_binary_roundtrip_witness :
    decode_text_from_emoji_binary
      (encode_text_in_emoji_binary [128274] [72, 105]) = some [72, 105] :=
  C2_binary_roundtrip [128274] [72, 105] (by decide) (by decide) (by decide)
    (by decide)

/-- C3: auto-detection as claimed fails for the empty payload: the tag
encoding of the empty payload auto-decodes to NotFound, not `("", Tag)`. -/
theorem C3_counterexample :
    ¬decode_auto (hide_text_in_emoji_tags [] []) = some ([], Scheme.tag) := by
  decide

/-- C3 (amended): for every nonempty payload P of Unicode scalar values and
every carrier C free of both alphabets, the auto mode returns `(P, Tag)` on
the tag encoding, and `(P, Binary)` on the binary encoding whenever P also
passes the 10% control-character filter. -/
theorem C3_auto_detection (C P : List Nat)
    (hCt : ∀ c ∈ C, tagAlpha c = false) (hCz : ∀ c ∈ C, zwAlpha c = false)
    (hP : ∀ c ∈ P, validCP c = true) (hne : P ≠ []) :
    decode_auto (hide_text_in_emoji_tags C P) = some (P, Scheme.tag) ∧
    (10 * controlCount P ≤ P.length →
      decode_auto (encode_text_in_emoji_binary C P) = some (P, Scheme.binary)) :=
  ⟨decode_auto_tags C P hCt hP hne,
   fun hctl => decode_auto_binary C P hCt hCz hP hne hctl⟩

/-- C3 witness: carrier 🔒, payload "Hi", both schemes. -/
theorem C3_auto_detection_witness :
    decode_auto (hide_text_in_emoji_tags [128274] [72, 105])
        = some ([72, 105], Scheme.tag) ∧
    decode_auto (encode_text_in_emoji_binary [128274] [72, 105])
        = some ([72, 105], Scheme.binary) := by
  have h := C3_auto_detection [128274] [72, 105] (by decide) (by decide)
    (by decide) (by decide)
  exact ⟨h.1, h.2 (by decide)⟩

/-- C4: the terminator is not the code point immediately after the 16 digit
code points: encode appends `TAG_END = 0xE007F`, which differs from
`TAG_BASE + 16`, and the scan does not treat `TAG_BASE + 16` as a stop
marker (here it scans past it and still collects a digit). -/
theorem C4_counterexample :
    hide_text_in_emoji_tags [] [] = [TAG_END] ∧
    ¬TAG_END = TAG_BASE + 16 ∧
    tagScan [TAG_BASE + 16, TAG_BASE] = [0] := by
  decide

/-- C4 (amended): the terminator appended by encode and recognized as the
stop marker by decode is `TAG_BASE + 0x7F` (U+E007F, the end of the tag
block), 111 code points past the digit range, while `TAG_BASE + 16` is
merely skipped by the scan. -/
theorem C4_terminator :
    TAG_END = TAG_BASE + 0x7F ∧
    (∀ C P, hide_text_in_emoji_tags C P = C ++ text_to_tags P ++ [TAG_END]) ∧
    (∀ s, tagScan (TAG_END :: s) = []) ∧
    (∀ s, tagScan ((TAG_BASE + 16) :: s) = tagScan s) := by
  refine ⟨by decide, fun C P => rfl, tagScan_cons_end, fun s => ?_⟩
  exact tagScan_cons_skip _ (by decide) s

/-- C5: after grouping the bit string into complete bytes, `binary_to_text`
returns the accepted UTF-8 decoding when its control-character fraction is
at most 10%, and otherwise the Latin-1 decoding of the bytes; Latin-1 and
the raw `chr` mapping are total and agree (each byte maps to the code point
of its value), so the chain never falls through. -/
theorem C5_fallback_chain (bits : List Bool) (hne : bitsToBytes bits ≠ []) :
    (∀ r, utf8Decode (bitsToBytes bits) = some r →
      10 * controlCount r ≤ r.length → binary_to_text bits = some r) ∧
    (∀ r, utf8Decode (bitsToBytes bits) = some r →
      ¬10 * controlCount r ≤ r.length →
      binary_to_text bits = some (bitsToBytes bits)) ∧
    (utf8Decode (bitsToBytes bits) = none →
      binary_to_text bits = some (bitsToBytes bits)) ∧
    latin1Decode (bitsToBytes bits) = some (bitsToBytes bits) ∧
    rawChrDecode (bitsToBytes bits) = some (bitsToBytes bits) := by
  refine ⟨?_, ?_, ?_, rfl, ?_⟩
  · intro r hr hc
    unfold binary_to_text
    rw [if_neg hne, hr]
    simp [hc]
  · intro r hr hc
    unfold binary_to_text
    rw [if_neg hne, hr]
    simp [hc, latin1Decode]
  · intro hr
    unfold binary_to_text
    rw [if_neg hne, hr]
    simp [latin1Decode]
  · unfold rawChrDecode
    rw [if_pos fun b hb => lt_trans (bitsToBytes_lt_256 bits b hb) (by omega)]

/-- C5 witness: the 8 bits of byte 0x48 decode through the UTF-8 branch. -/
theorem C5_fallback_chain_witness :
    binary_to_text (byteBits 72) = some [72] :=
  (C5_fallback_chain (byteBits 72) (by decide)).1 [72] (by decide) (by decide)

/-- C6: inserting a code point outside the own alphabet of a codec anywhere in
the input changes the result of neither decoder — each decoder depends only
on the subsequence of code points of its own alphabet. -/
theorem C6_nonalpha_ignored (s1 s2 : List Nat) (c : Nat) :
    (tagAlpha c = false →
      reveal_text_from_emoji_tags (s1 ++ c :: s2)
        = reveal_text_from_emoji_tags (s1 ++ s2)) ∧
    (zwAlpha c = false →
      decode_text_from_emoji_binary (s1 ++ c :: s2)
        = decode_text_from_emoji_binary (s1 ++ s2)) := by
  constructor
  · intro h
    unfold reveal_text_from_emoji_tags
    rw [tagScan_insert s1 s2 c h]
  · intro h
    unfold decode_text_from_emoji_binary
    rw [bitScan_insert s1 s2 c h]

/-- C6 witness: the letter X (U+0058) inserted between tag digits, and
between zero-width bits, leaves both decoders unchanged. -/
theorem C6_nonalpha_ignored_witness :
    reveal_text_from_emoji_tags
        ([TAG_BASE + 4, TAG_BASE + 8] ++ 88 :: [TAG_END])
      = reveal_text_from_emoji_tags ([TAG_BASE + 4, TAG_BASE + 8] ++ [TAG_END]) ∧
    decode_text_from_emoji_binary
        ([ZW0, ZW1, ZW0, ZW0, ZW1, ZW0, ZW0, ZW0] ++ 88 :: [ZWSEP])
      = decode_text_from_emoji_binary
          ([ZW0, ZW1, ZW0, ZW0, ZW1, ZW0, ZW0, ZW0] ++ [ZWSEP]) :=
  ⟨(C6_nonalpha_ignored [TAG_BASE + 4, TAG_BASE + 8] [TAG_END] 88).1 (by decide),
   (C6_nonalpha_ignored [ZW0, ZW1, ZW0, ZW0, ZW1, ZW0, ZW0, ZW0] [ZWSEP] 88).2
     (by decide)⟩

/-- C7: the truncation claim fails as stated for inputs with fewer than 8
collected bits: a 3-bit stego string decodes to NotFound, not to a
successful result. -/
theorem C7_counterexample :
    decode_text_from_emoji_binary [ZW0, ZW0, ZW0, ZWSEP] = none := by
  decide

/-- C7 (amended): once at least one complete 8-bit group was collected, the
binary decoder succeeds; trailing bits short of a full group are silently
dropped by the byte grouping; the crafted 11-bit input (one full byte of
0x41 plus 3 leftover bits) decodes to exactly the one character "A". -/
theorem C7_truncation_policy :
    (∀ s, 8 ≤ (bitScan s).length → decode_text_from_emoji_binary s ≠ none) ∧
    (∀ (bits extra : List Bool), bits.length % 8 = 0 → extra.length < 8 →
      bitsToBytes (bits ++ extra) = bitsToBytes bits) ∧
    decode_text_from_emoji_binary
      [ZW0, ZW1, ZW0, ZW0, ZW0, ZW0, ZW0, ZW1, ZW1, ZW0, ZW1, ZWSEP]
      = some [65] := by
  refine ⟨fun s h => ?_, bitsToBytes_append_extra, by decide⟩
  obtain ⟨t, ht⟩ := binary_decode_some s h
  simp [ht]

/-- C7 witness: a 9-bit input decodes to a result, and 3 extra bits after
one full byte do not change the grouped bytes. -/
theorem C7_truncation_policy_witness :
    decode_text_from_emoji_binary
      [ZW0, ZW1, ZW0, ZW0, ZW0, ZW0, ZW0, ZW1, ZW1, ZWSEP] ≠ none ∧
    bitsToBytes (byteBits 65 ++ [true, false, true]) = bitsToBytes (byteBits 65) :=
  ⟨C7_truncation_policy.1 _ (by decide),
   C7_truncation_policy.2.1 (byteBits 65) [true, false, true] (by decide)
     (by decide)⟩

/-- C8: scheme isolation — for a carrier containing no code point of either
alphabet, the tag decoder returns NotFound on any binary-encoded stego
string, and the binary decoder returns NotFound on any tag-encoded stego
string. -/
theorem C8_scheme_isolation (C P : List Nat)
    (hCt : ∀ c ∈ C, tagAlpha c = false) (hCz : ∀ c ∈ C, zwAlpha c = false) :
    reveal_text_from_emoji_tags (encode_text_in_emoji_binary C P) = none ∧
    decode_text_from_emoji_binary (hide_text_in_emoji_tags C P) = none :=
  ⟨reveal_eq_none _ (tagScan_eq_nil _ (encode_binary_no_tagAlpha C P hCt)),
   decode_binary_eq_none _ (bitScan_eq_nil _ (encode_tags_no_zwAlpha C P hCz))⟩

/-- C8 witness: carrier 🔒, payload "H". -/
theorem C8_scheme_isolation_witness :
    reveal_text_from_emoji_tags (encode_text_in_emoji_binary [128274] [72]) = none ∧
    decode_text_from_emoji_binary (hide_text_in_emoji_tags [128274] [72]) = none :=
  C8_scheme_isolation [128274] [72] (by decide) (by decide)

/-- C9: an input whose tag scan collects exactly one digit decodes to Found
with the empty string (the lone digit is dropped by pairing and zero bytes
decode to ""), while an input with zero collected digits decodes to
NotFound. -/
theorem C9_single_digit (s : List Nat) :
    ((tagScan s).length = 1 → reveal_text_from_emoji_tags s = some []) ∧
    (tagScan s = [] → reveal_text_from_emoji_tags s = none) := by
  constructor
  · intro h
    obtain ⟨d, hd⟩ := List.length_eq_one.mp h
    unfold reveal_text_from_emoji_tags
    rw [hd]
    simp [pairNibbles, utf8Decode, utf8Run]
  · exact reveal_eq_none s

/-- C9 witness: the single digit U+E0005. -/
theorem C9_single_digit_witness :
    reveal_text_from_emoji_tags [TAG_BASE + 5] = some [] :=
  (C9_single_digit [TAG_BASE + 5]).1 (by decide)

/-- C10: whenever at least 8 bit characters precede the first separator,
the binary decoder returns a Found string, never NotFound: the Latin-1
fallback is total on bytes. -/
theorem C10_binary_total (s : List Nat) (h : 8 ≤ (bitScan s).length) :
    ∃ t, decode_text_from_emoji_binary s = some t :=
  binary_decode_some s h

/-- C10 witness: 8 zero-width bits with no separator. -/
theorem C10_binary_total_witness :
    ∃ t, decode_text_from_emoji_binary
      [ZW0, ZW1, ZW0, ZW0, ZW0, ZW0, ZW0, ZW1] = some t :=
  C10_binary_total [ZW0, ZW1, ZW0, ZW0, ZW0, ZW0, ZW0, ZW1] (by decide)

end EmojiStego
